import Mathlib

/-!
Verification development for `reftool.c`, a tool that embeds and lists
".reference" metadata notes in ELF object files.

The C source is shallowly embedded below:
* byte buffers and C strings become `List Nat` (one `Nat` per byte);
* `struct note` becomes the structure `Note` (`sizeof(struct note)` is 12:
  three 4-byte `GElf_Word` fields followed by the flexible array `buf`);
* the libelf view of a file (`Elf*`) becomes the structure `Elf`, holding the
  sections reachable by `elf_nextscn` (the all-zero reserved section at index 0
  is not iterated by libelf and carries no data, so it is omitted; section
  index `n ≥ 1` is `scns[n-1]`), together with the data buffer of the
  section-name string table;
* fallible libelf calls return `Option`; `none` models the fatal error paths
  (`elf_errx` / `err` abort the process);
* `GElf_Word`/`GElf_Off` arithmetic is modelled exactly on `Nat`: every
  quantity the tool computes is far below 2^32 for representable inputs, so
  no wrap-around occurs.
-/

/-- A byte, modelled as a natural number. -/
abbrev Byte := Nat

/-- The bytes of the C constant `REFERENCE_SECTION_NAME = ".reference"`. -/
def REFERENCE_SECTION_NAME : List Byte :=
  [46, 114, 101, 102, 101, 114, 101, 110, 99, 101]

/-- ELF section type `SHT_NOBITS` (occupies no file bytes). -/
def SHT_NOBITS : Nat := 8

/-- ELF section type `SHT_NOTE`. -/
def SHT_NOTE : Nat := 7

/-- ELF section flag `SHF_ALLOC`. -/
def SHF_ALLOC : Nat := 2

/-- The C `struct note`: `namesz`, `descsz`, `type` (each a `GElf_Word`)
followed by the flexible byte array `buf`. -/
structure Note where
  namesz : Nat
  descsz : Nat
  type : Nat
  buf : List Byte
deriving DecidableEq

/-- `sizeof(struct note)`: three 4-byte words, no padding. -/
def noteHeaderSize : Nat := 12

/-- The padding computation `len += (4 - (len & 3)) & 3` from `add`. -/
def roundUp4 (n : Nat) : Nat := n + (4 - n % 4) % 4

/-- `memcpy(buf + off, src, src.length)` on a byte list
(assuming `off + src.length ≤ buf.length`, as in both uses in `add`). -/
def writeBytes (buf : List Byte) (off : Nat) (src : List Byte) : List Byte :=
  buf.take off ++ src ++ buf.drop (off + src.length)

/-- The note-encoding half of `add` (reftool.c:260-278): pad both lengths to a
multiple of 4, `calloc` a zero-initialized buffer, set `namesz`/`descsz`
(leaving `type` zero), then `memcpy` the payload at offset `namesz` and the
media type at offset 0. -/
def encodeNote (mediatype data : List Byte) : Note :=
  let mtlen := roundUp4 mediatype.length
  let dlen := roundUp4 data.length
  let zeroed := List.replicate (mtlen + dlen) 0
  { namesz := mtlen
    descsz := dlen
    type := 0
    buf := writeBytes (writeBytes zeroed mtlen data) 0 mediatype }

/-- Total record size in bytes: `sizeof(struct note)` plus the payload. -/
def noteSize (n : Note) : Nat := noteHeaderSize + n.buf.length

/-- Reading a C string starting at byte offset `off` of a buffer:
the bytes up to (excluding) the first null byte. -/
def cString (buf : List Byte) (off : Nat) : List Byte :=
  (buf.drop off).takeWhile (fun b => b != 0)

/-- The name half of the decoder: `read_section` prints `n->buf` with `%s`
(reftool.c:124). -/
def decodeName (n : Note) : List Byte := cString n.buf 0

/-- The description half of the decoder: `read_section` prints
`n->buf + n->namesz` with `%s` (reftool.c:124). -/
def decodeDesc (n : Note) : List Byte := cString n.buf n.namesz

/-- One printed line of `read_section`:
`printf("%s (%s)\n", n->buf + n->namesz, n->buf)`, i.e. the description,
a space, and the name in parentheses (the trailing newline is the line
separator and not part of the line). -/
def fmtLine (n : Note) : List Byte :=
  decodeDesc n ++ [32, 40] ++ decodeName n ++ [41]

/-- An ELF section header (`GElf_Shdr`), restricted to the fields the tool
reads or writes. -/
structure Shdr where
  sh_name : Nat
  sh_type : Nat
  sh_flags : Nat
  sh_offset : Nat
  sh_size : Nat
  sh_addralign : Nat
  sh_entsize : Nat
deriving DecidableEq

/-- A section (`Elf_Scn`): its header and its chain of data blocks
(`Elf_Data`).  A `none` block models a descriptor whose `d_buf` is `NULL`;
for the sections the reader touches, a non-null `d_buf` points at a
`struct note`. -/
structure Scn where
  shdr : Shdr
  blocks : List (Option Note)
deriving DecidableEq

/-- The libelf handle: the header fields the tool uses (`e_shstrndx`,
`e_shoff`), the sections reachable by `elf_nextscn` (ELF section index
`n ≥ 1` is `scns[n-1]`; the reserved all-zero section 0 is not iterated and
holds no data), and the data buffer of the section-name string table. -/
structure Elf where
  e_shstrndx : Nat
  e_shoff : Nat
  scns : List Scn
  shstrtab : List Byte
deriving DecidableEq

/-- `elf_getscn(elf, ndx)`: section index 0 is the reserved null section
(no data, unusable as a string table), other indices address `scns`. -/
def elf_getscn (e : Elf) (ndx : Nat) : Option Scn :=
  if ndx = 0 then none else e.scns.get? (ndx - 1)

/-- `elf_strptr(elf, e_shstrndx, off)`: the C string at offset `off` of the
section-name string table, `NULL` (here `none`) if the string-table section
or the offset is invalid. -/
def elf_strptr (e : Elf) (off : Nat) : Option (List Byte) :=
  match elf_getscn e e.e_shstrndx with
  | none => none
  | some _ => if off < e.shstrtab.length then some (cString e.shstrtab off) else none

/-- The section-name resolution both scans perform:
`elf_strptr(elf, ehdr.e_shstrndx, shdr.sh_name)`. -/
def resolveName (e : Elf) (s : Scn) : Option (List Byte) :=
  elf_strptr e s.shdr.sh_name

/-- The scan loop of `find_or_add_strtab_ref` (reftool.c:187-207): walk the
sections; a failed name resolution is fatal (`none`); the first section whose
name is `".reference"` yields `some (some sh_name)`; falling off the end
yields `some none`. -/
def findRefScan (e : Elf) : List Scn → Option (Option Nat)
  | [] => some none
  | s :: rest =>
    match resolveName e s with
    | none => none
    | some nm =>
      if nm = REFERENCE_SECTION_NAME then some (some s.shdr.sh_name)
      else findRefScan e rest

/-- `find_or_add_strtab_ref` (reftool.c:174-253): if some section is already
named `".reference"`, return its `sh_name` offset unchanged; otherwise append
`".reference\0"` to the string-table data (copying the old contents forward),
update the string-table section's `sh_size`, and return the old buffer size. -/
def find_or_add_strtab_ref (e : Elf) : Option (Nat × Elf) :=
  match findRefScan e e.scns with
  | none => none
  | some (some off) => some (off, e)
  | some none =>
    match elf_getscn e e.e_shstrndx with
    | none => none
    | some scn =>
      let offset := e.shstrtab.length
      let newTable := e.shstrtab ++ REFERENCE_SECTION_NAME ++ [0]
      let scn' : Scn := { scn with shdr := { scn.shdr with sh_size := newTable.length } }
      some (offset, { e with
        shstrtab := newTable
        scns := e.scns.set (e.e_shstrndx - 1) scn' })

/-- The append-offset scan of `add` (reftool.c:292-309): the running maximum
of `sh_offset + sh_size` over sections whose type is not `SHT_NOBITS`,
starting from 0. -/
def computeAppendOffset (e : Elf) : Nat :=
  e.scns.foldl
    (fun last_offset s =>
      if s.shdr.sh_type ≠ SHT_NOBITS ∧
          last_offset < s.shdr.sh_offset + s.shdr.sh_size
      then s.shdr.sh_offset + s.shdr.sh_size
      else last_offset)
    0

/-- `add` (reftool.c:256-380), at the level of the in-memory `Elf`: encode
the note, find-or-add the `".reference"` string-table entry, compute the
append offset, create a new `SHT_NOTE` section holding the record at that
offset, and point `e_shoff` just past the new bytes.  (The final
`elf_update` commit serializes this state and is outside the model.) -/
def add (e : Elf) (mediatype data : List Byte) : Option Elf :=
  let note := encodeNote mediatype data
  let bufsize := noteHeaderSize + roundUp4 mediatype.length + roundUp4 data.length
  match find_or_add_strtab_ref e with
  | none => none
  | some (sh_name, e1) =>
    let last_offset := computeAppendOffset e1
    let ref_shdr : Shdr :=
      { sh_entsize := 0
        sh_flags := SHF_ALLOC
        sh_name := sh_name
        sh_type := SHT_NOTE
        sh_offset := last_offset
        sh_size := bufsize
        sh_addralign := 1 }
    some { e1 with
      scns := e1.scns ++ [{ shdr := ref_shdr, blocks := [some note] }]
      e_shoff := last_offset + bufsize }

/-- `read_section` (reftool.c:89-129): resolve the section's name (failure is
fatal); a section not named `".reference"` is skipped, contributing no lines;
otherwise each data block with a non-null buffer prints one line. -/
def read_section (e : Elf) (s : Scn) : Option (List (List Byte)) :=
  match resolveName e s with
  | none => none
  | some nm =>
    if nm ≠ REFERENCE_SECTION_NAME then some []
    else some (s.blocks.filterMap (fun b => Option.map fmtLine b))

/-- The section loop of `list` (reftool.c:156-162): run `read_section` on
every section in table order, concatenating the printed lines; any failure
is fatal. -/
def listScan (e : Elf) : List Scn → Option (List (List Byte))
  | [] => some []
  | s :: rest =>
    match read_section e s with
    | none => none
    | some ls =>
      match listScan e rest with
      | none => none
      | some more => some (ls ++ more)

/-- `list` (reftool.c:143-170): the lines printed for a container. -/
def list (e : Elf) : Option (List (List Byte)) :=
  listScan e e.scns

lemma le_roundUp4 (n : Nat) : n ≤ roundUp4 n := by
  unfold roundUp4; omega

lemma roundUp4_mod4 (n : Nat) : roundUp4 n % 4 = 0 := by
  unfold roundUp4; omega

lemma lt_roundUp4_of_not_aligned (n : Nat) (h : n % 4 ≠ 0) : n < roundUp4 n := by
  unfold roundUp4; omega

lemma takeWhile_append_of_all {p : Byte → Bool} (l1 l2 : List Byte)
    (h : ∀ x ∈ l1, p x = true) :
    (l1 ++ l2).takeWhile p = l1 ++ l2.takeWhile p := by
  induction l1 with
  | nil => simp
  | cons a t ih =>
    have ha : p a = true := h a (by simp)
    simp [List.takeWhile_cons, ha, ih fun x hx => h x (by simp [hx])]

lemma takeWhile_replicate_zero (k : Nat) :
    (List.replicate k (0 : Byte)).takeWhile (fun b => b != 0) = [] := by
  cases k with
  | zero => rfl
  | succ k' => simp [List.replicate_succ, List.takeWhile_cons]

lemma writeBytes_replicate (k off : Nat) (src : List Byte)
    (h : off + src.length ≤ k) :
    writeBytes (List.replicate k 0) off src =
      List.replicate off 0 ++ src ++ List.replicate (k - (off + src.length)) 0 := by
  unfold writeBytes
  rw [List.take_replicate, List.drop_replicate, Nat.min_eq_left (by omega)]

/-- Normal form of the encoded payload buffer: the media type, zero padding to
`namesz`, the data, zero padding to `namesz + descsz`. -/
theorem encodeNote_buf (m d : List Byte) :
    (encodeNote m d).buf =
      m ++ List.replicate (roundUp4 m.length - m.length) 0 ++
      d ++ List.replicate (roundUp4 d.length - d.length) 0 := by
  have hm := le_roundUp4 m.length
  have hd := le_roundUp4 d.length
  show writeBytes
      (writeBytes (List.replicate (roundUp4 m.length + roundUp4 d.length) 0)
        (roundUp4 m.length) d) 0 m = _
  rw [writeBytes_replicate _ _ _ (by omega)]
  have h1 : roundUp4 m.length + roundUp4 d.length - (roundUp4 m.length + d.length) =
      roundUp4 d.length - d.length := by omega
  rw [h1]
  unfold writeBytes
  rw [List.take_zero, List.nil_append, Nat.zero_add,
    List.drop_append_eq_append_drop, List.drop_append_eq_append_drop,
    List.drop_replicate, List.length_replicate, Nat.sub_eq_zero_of_le hm,
    List.drop_zero]
  simp only [List.append_assoc, List.drop_zero, List.length_append,
    List.length_replicate, List.append_cancel_left_eq]
  have h3 : m.length - (roundUp4 m.length + d.length) = 0 := by omega
  rw [h3, List.drop_zero]

lemma all_bne_zero_of_not_mem {l : List Byte} (h : 0 ∉ l) :
    ∀ x ∈ l, (x != 0) = true := by
  intro x hx
  simp only [bne_iff_ne, ne_eq]
  intro h0
  exact h (h0 ▸ hx)

/-- C1 counterexample: with `m = "abcd"` (length a multiple of 4) and
`d = "x"`, both free of null bytes, the name region of the encoded record has
no null terminator before the description bytes, so decoding the name yields
`"abcdx"`, not `"abcd"`. -/
theorem C1_counterexample :
    (0 ∉ ([97, 98, 99, 100] : List Byte)) ∧ (0 ∉ ([120] : List Byte)) ∧
    decodeName (encodeNote [97, 98, 99, 100] [120]) = [97, 98, 99, 100, 120] ∧
    decodeName (encodeNote [97, 98, 99, 100] [120]) ≠ [97, 98, 99, 100] := by
  decide

/-- C1 (amended): for strings `m` and `d` with no embedded null bytes, and
`m`'s length not a multiple of 4 (so the name field retains at least one byte
of zero padding to terminate it), decoding the record produced by encoding
`(m, d)` yields back exactly `(m, d)`. -/
theorem C1_round_trip (m d : List Byte) (hm : 0 ∉ m) (hd : 0 ∉ d)
    (hlen : m.length % 4 ≠ 0) :
    decodeName (encodeNote m d) = m ∧ decodeDesc (encodeNote m d) = d := by
  have hmle := le_roundUp4 m.length
  have hdle := le_roundUp4 d.length
  have hpad : 0 < roundUp4 m.length - m.length := by
    have := lt_roundUp4_of_not_aligned m.length hlen
    omega
  constructor
  · show cString (encodeNote m d).buf 0 = m
    rw [encodeNote_buf]
    unfold cString
    rw [List.drop_zero]
    rw [List.append_assoc, List.append_assoc,
      takeWhile_append_of_all _ _ (all_bne_zero_of_not_mem hm)]
    obtain ⟨k, hk⟩ : ∃ k, roundUp4 m.length - m.length = k + 1 :=
      ⟨roundUp4 m.length - m.length - 1, by omega⟩
    rw [hk, List.replicate_succ, List.cons_append, List.takeWhile_cons]
    simp
  · show cString (encodeNote m d).buf (encodeNote m d).namesz = d
    have hns : (encodeNote m d).namesz = roundUp4 m.length := rfl
    rw [hns, encodeNote_buf]
    unfold cString
    rw [List.append_assoc]
    have hlen1 : (m ++ List.replicate (roundUp4 m.length - m.length) 0).length =
        roundUp4 m.length := by
      simp only [List.length_append, List.length_replicate]
      omega
    rw [List.drop_append_eq_append_drop,
      List.drop_eq_nil_of_le (le_of_eq hlen1), hlen1, Nat.sub_self,
      List.drop_zero, List.nil_append,
      takeWhile_append_of_all _ _ (all_bne_zero_of_not_mem hd),
      takeWhile_replicate_zero, List.append_nil]

/-- Witness for C1 (amended) at `m = "a"`, `d = "bc"`. -/
theorem C1_round_trip_witness :
    (0 ∉ ([97] : List Byte)) ∧ (0 ∉ ([98, 99] : List Byte)) ∧
    ([97] : List Byte).length % 4 ≠ 0 ∧
    decodeName (encodeNote [97] [98, 99]) = [97] ∧
    decodeDesc (encodeNote [97] [98, 99]) = [98, 99] :=
  ⟨by decide, by decide, by decide,
    (C1_round_trip [97] [98, 99] (by decide) (by decide) (by decide)).1,
    (C1_round_trip [97] [98, 99] (by decide) (by decide) (by decide)).2⟩

/-- C8: the encoded note record's `namesz` and `descsz` are the lengths of
the media type and payload rounded up to multiples of 4 (and are multiples
of 4); the total record size is `sizeof(struct note)` plus both padded
lengths; and the payload buffer is exactly the media type, zero padding to
`namesz`, the data, and zero padding to `namesz + descsz`, so every byte past
each string within its padded field is zero. -/
theorem C8_padding (m d : List Byte) :
    (encodeNote m d).namesz = roundUp4 m.length ∧
    (encodeNote m d).descsz = roundUp4 d.length ∧
    (encodeNote m d).namesz % 4 = 0 ∧
    (encodeNote m d).descsz % 4 = 0 ∧
    roundUp4 m.length = 4 * ((m.length + 3) / 4) ∧
    roundUp4 d.length = 4 * ((d.length + 3) / 4) ∧
    noteSize (encodeNote m d) =
      noteHeaderSize + roundUp4 m.length + roundUp4 d.length ∧
    (encodeNote m d).buf =
      m ++ List.replicate (roundUp4 m.length - m.length) 0 ++
      d ++ List.replicate (roundUp4 d.length - d.length) 0 := by
  refine ⟨rfl, rfl, roundUp4_mod4 _, roundUp4_mod4 _, ?_, ?_, ?_, encodeNote_buf m d⟩
  · unfold roundUp4; omega
  · unfold roundUp4; omega
  · show noteHeaderSize + (encodeNote m d).buf.length = _
    rw [encodeNote_buf]
    simp only [List.length_append, List.length_replicate]
    have := le_roundUp4 m.length
    have := le_roundUp4 d.length
    omega

/-- C10: the note record built by `add` always has its `type` header field
equal to 0: the buffer is zero-initialized by `calloc` and the field is never
assigned. -/
theorem C10_type_field_zero (m d : List Byte) : (encodeNote m d).type = 0 :=
  rfl

/-- Specification-shaped maximum: the maximum of `sh_offset + sh_size` over
the sections whose type is not `SHT_NOBITS` (0 when there are none). -/
def maxEndSpec (l : List Scn) : Nat :=
  ((l.filter (fun s => decide (s.shdr.sh_type ≠ SHT_NOBITS))).map
    (fun s => s.shdr.sh_offset + s.shdr.sh_size)).foldr max 0

lemma maxEndSpec_cons_nobits (s : Scn) (rest : List Scn)
    (h : s.shdr.sh_type = SHT_NOBITS) :
    maxEndSpec (s :: rest) = maxEndSpec rest := by
  simp [maxEndSpec, List.filter_cons, h]

lemma maxEndSpec_cons_bits (s : Scn) (rest : List Scn)
    (h : s.shdr.sh_type ≠ SHT_NOBITS) :
    maxEndSpec (s :: rest) =
      max (s.shdr.sh_offset + s.shdr.sh_size) (maxEndSpec rest) := by
  simp [maxEndSpec, List.filter_cons, h]

lemma foldl_append_offset (l : List Scn) :
    ∀ acc,
      l.foldl
        (fun last_offset s =>
          if s.shdr.sh_type ≠ SHT_NOBITS ∧
              last_offset < s.shdr.sh_offset + s.shdr.sh_size
          then s.shdr.sh_offset + s.shdr.sh_size
          else last_offset)
        acc = max acc (maxEndSpec l) := by
  induction l with
  | nil => intro acc; simp [maxEndSpec]
  | cons s rest ih =>
    intro acc
    simp only [List.foldl_cons]
    by_cases hb : s.shdr.sh_type = SHT_NOBITS
    · rw [if_neg (by simp [hb]), ih, maxEndSpec_cons_nobits s rest hb]
    · rw [maxEndSpec_cons_bits s rest hb]
      by_cases hlt : acc < s.shdr.sh_offset + s.shdr.sh_size
      · rw [if_pos ⟨hb, hlt⟩, ih]
        omega
      · rw [if_neg (fun hc => hlt hc.2), ih]
        omega

lemma computeAppendOffset_eq (e : Elf) :
    computeAppendOffset e = maxEndSpec e.scns := by
  unfold computeAppendOffset
  rw [foldl_append_offset]
  omega

lemma mem_le_maxEndSpec (l : List Scn) (s : Scn) (hs : s ∈ l)
    (hb : s.shdr.sh_type ≠ SHT_NOBITS) :
    s.shdr.sh_offset + s.shdr.sh_size ≤ maxEndSpec l := by
  induction l with
  | nil => cases hs
  | cons a rest ih =>
    rcases List.mem_cons.mp hs with h | h
    · rw [h, maxEndSpec_cons_bits a rest (h ▸ hb)]
      omega
    · by_cases ha : a.shdr.sh_type = SHT_NOBITS
      · rw [maxEndSpec_cons_nobits a rest ha]
        exact ih h
      · rw [maxEndSpec_cons_bits a rest ha]
        have := ih h
        omega

/-- C7: the append-offset scan of `add` computes the maximum of
`sh_offset + sh_size` over the sections whose type is not `SHT_NOBITS`, and
0 when there is no such section. -/
theorem C7_compute_append_offset (e : Elf) :
    computeAppendOffset e = maxEndSpec e.scns ∧
    (e.scns.filter (fun s => decide (s.shdr.sh_type ≠ SHT_NOBITS)) = [] →
      computeAppendOffset e = 0) := by
  refine ⟨computeAppendOffset_eq e, fun hf => ?_⟩
  rw [computeAppendOffset_eq e]
  unfold maxEndSpec
  rw [hf]
  rfl

/-- An empty container (no iterable sections). -/
def eEmpty : Elf := ⟨0, 0, [], []⟩

/-- Two half-open byte ranges `[a, a+n)` and `[b, b+m)` intersect. -/
def overlap (a n b m : Nat) : Prop :=
  ∃ x, (a ≤ x ∧ x < a + n) ∧ (b ≤ x ∧ x < b + m)

lemma overlap_iff (a n b m : Nat) :
    overlap a n b m ↔ max a b < min (a + n) (b + m) := by
  constructor
  · rintro ⟨x, ⟨h1, h2⟩, h3, h4⟩
    omega
  · intro h
    exact ⟨max a b, ⟨by omega, by omega⟩, by omega, by omega⟩

instance (a n b m : Nat) : Decidable (overlap a n b m) :=
  decidable_of_iff _ (overlap_iff a n b m).symm

lemma findRefScan_absent (e : Elf) (l : List Scn)
    (h : findRefScan e l = some none) :
    ∀ s ∈ l, resolveName e s ≠ some REFERENCE_SECTION_NAME := by
  induction l with
  | nil => intro s hs; cases hs
  | cons a rest ih =>
    intro s hs
    cases hr : resolveName e a with
    | none => simp only [findRefScan, hr] at h; cases h
    | some nm =>
      simp only [findRefScan, hr] at h
      by_cases hnm : nm = REFERENCE_SECTION_NAME
      · rw [if_pos hnm] at h
        simp at h
      · rw [if_neg hnm] at h
        rcases List.mem_cons.mp hs with hsa | hsr
        · rw [hsa, hr]
          intro hc
          exact hnm (by injection hc)
        · exact ih h s hsr

lemma findRefScan_found (e : Elf) (l : List Scn) (o : Nat)
    (h : findRefScan e l = some (some o)) :
    ∃ s ∈ l, resolveName e s = some REFERENCE_SECTION_NAME ∧
      s.shdr.sh_name = o := by
  induction l with
  | nil => simp [findRefScan] at h
  | cons a rest ih =>
    cases hr : resolveName e a with
    | none => simp only [findRefScan, hr] at h; cases h
    | some nm =>
      simp only [findRefScan, hr] at h
      by_cases hnm : nm = REFERENCE_SECTION_NAME
      · rw [if_pos hnm] at h
        refine ⟨a, by simp, by rw [hr, hnm], ?_⟩
        injection h with h1
        injection h1
      · rw [if_neg hnm] at h
        obtain ⟨s, hs, hres, hname⟩ := ih h
        exact ⟨s, by simp [hs], hres, hname⟩

lemma resolveName_some (e : Elf) (s : Scn) (nm : List Byte)
    (h : resolveName e s = some nm) :
    cString e.shstrtab s.shdr.sh_name = nm := by
  unfold resolveName elf_strptr at h
  cases hg : elf_getscn e e.e_shstrndx with
  | none => rw [hg] at h; cases h
  | some scn =>
    rw [hg] at h
    by_cases hlt : s.shdr.sh_name < e.shstrtab.length
    · rw [if_pos hlt] at h
      injection h
    · rw [if_neg hlt] at h
      cases h

/-- Case analysis of `find_or_add_strtab_ref`: either a `".reference"`
section was found and the container is returned unchanged, or the scan fell
through and the string table was extended. -/
lemma find_or_add_eq (e : Elf) (o : Nat) (e' : Elf)
    (h : find_or_add_strtab_ref e = some (o, e')) :
    (findRefScan e e.scns = some (some o) ∧ e' = e) ∨
    (findRefScan e e.scns = some none ∧
      ∃ st, elf_getscn e e.e_shstrndx = some st ∧
        o = e.shstrtab.length ∧
        e' = { e with
          shstrtab := e.shstrtab ++ REFERENCE_SECTION_NAME ++ [0]
          scns := e.scns.set (e.e_shstrndx - 1)
            { st with shdr := { st.shdr with
                sh_size := (e.shstrtab ++ REFERENCE_SECTION_NAME ++ [0]).length } } }) := by
  unfold find_or_add_strtab_ref at h
  revert h
  cases hscan : findRefScan e e.scns with
  | none =>
    intro h
    exact absurd (show (none : Option (Nat × Elf)) = some (o, e') from h)
      (by simp)
  | some ov =>
    cases ov with
    | some off =>
      intro h
      have h2 : some (off, e) = some (o, e') := h
      injection h2 with h3
      have h4 := (Prod.mk.injEq _ _ _ _).mp h3
      exact Or.inl ⟨by rw [h4.1], h4.2.symm⟩
    | none =>
      cases hg : elf_getscn e e.e_shstrndx with
      | none =>
        intro h
        exact absurd (show (none : Option (Nat × Elf)) = some (o, e') from h)
          (by simp)
      | some st =>
        intro h
        have h2 : some (e.shstrtab.length,
            ({ e with
              shstrtab := e.shstrtab ++ REFERENCE_SECTION_NAME ++ [0]
              scns := e.scns.set (e.e_shstrndx - 1)
                { st with shdr := { st.shdr with
                    sh_size := (e.shstrtab ++ REFERENCE_SECTION_NAME ++ [0]).length } } }
              : Elf)) = some (o, e') := h
        injection h2 with h3
        have h4 := (Prod.mk.injEq _ _ _ _).mp h3
        exact Or.inr ⟨rfl, st, rfl, h4.1.symm, h4.2.symm⟩

/-- C4: if the container already has a section named `".reference"`, a
successful `find_or_add_strtab_ref` returns the container unchanged, and
calling it again returns the same offset and leaves the string table's
contents and size untouched. -/
theorem C4_find_or_add_idempotent (e e' : Elf) (o : Nat)
    (hc : ∃ s ∈ e.scns, resolveName e s = some REFERENCE_SECTION_NAME)
    (h : find_or_add_strtab_ref e = some (o, e')) :
    e' = e ∧ find_or_add_strtab_ref e' = some (o, e') := by
  rcases find_or_add_eq e o e' h with ⟨hscan, rfl⟩ | ⟨hscan, _⟩
  · refine ⟨rfl, ?_⟩
    unfold find_or_add_strtab_ref
    rw [hscan]
  · obtain ⟨s, hs, hres⟩ := hc
    exact absurd hres (findRefScan_absent _ _ hscan s hs)

/-- A container whose only section is the string table itself, carrying the
name `".reference"` at string-table offset 1. -/
def stRef : Scn := ⟨⟨1, 3, 0, 0, 12, 1, 0⟩, []⟩

/-- A container that already contains a `".reference"`-named section. -/
def eRef : Elf := ⟨1, 0, [stRef], [0] ++ REFERENCE_SECTION_NAME ++ [0]⟩

/-- Witness for C4 at a container already containing a reference section. -/
theorem C4_witness :
    eRef = eRef ∧ find_or_add_strtab_ref eRef = some (1, eRef) :=
  C4_find_or_add_idempotent eRef eRef 1 (by decide) (by decide)

/-- The string `nm` occurs as a null-terminated entry at some offset of the
string-table buffer `t`. -/
def strtabContainsStr (t nm : List Byte) : Bool :=
  (List.range t.length).any (fun off => cString t off == nm)

/-- A string-table section named by offset 0 (the empty string). -/
def stPlain : Scn := ⟨⟨0, 3, 0, 0, 1, 1, 0⟩, []⟩

/-- A container whose string table already contains `".reference"` (at
offset 1) while no section uses that name. -/
def eC5 : Elf := ⟨1, 0, [stPlain], [0] ++ REFERENCE_SECTION_NAME ++ [0]⟩

/-- C5 counterexample: `".reference"` is present in the string table (at
offset 1) but no section's name field references it, and
`find_or_add_strtab_ref` nevertheless appends a fresh entry, growing the
table from 12 to 23 bytes and returning the new offset 12 rather than the
offset of the existing entry.  The lookup is by section usage, not by string
value. -/
theorem C5_counterexample :
    strtabContainsStr eC5.shstrtab REFERENCE_SECTION_NAME = true ∧
    cString eC5.shstrtab 1 = REFERENCE_SECTION_NAME ∧
    eC5.shstrtab.length = 12 ∧
    (find_or_add_strtab_ref eC5).map (fun p => (p.1, p.2.shstrtab.length)) =
      some (12, 23) := by
  decide

/-- C5 (amended): a successful lookup returns the offset of an existing
entry whenever some section's name field already references the string
(leaving the container unchanged); only when no section uses the string is a
new entry appended, growing the table by `length + 1` bytes. -/
theorem C5_lookup_by_usage (e : Elf) (o : Nat) (e' : Elf)
    (h : find_or_add_strtab_ref e = some (o, e')) :
    ((∃ s ∈ e.scns, resolveName e s = some REFERENCE_SECTION_NAME) →
      e' = e ∧ cString e.shstrtab o = REFERENCE_SECTION_NAME) ∧
    ((∀ s ∈ e.scns, resolveName e s ≠ some REFERENCE_SECTION_NAME) →
      o = e.shstrtab.length ∧
      e'.shstrtab = e.shstrtab ++ REFERENCE_SECTION_NAME ++ [0]) := by
  rcases find_or_add_eq e o e' h with ⟨hscan, rfl⟩ | ⟨hscan, st, hg, ho, he'⟩
  · constructor
    · intro _
      obtain ⟨s, hs, hres, hname⟩ := findRefScan_found _ _ o hscan
      exact ⟨rfl, hname ▸ resolveName_some _ s _ hres⟩
    · intro habs
      obtain ⟨s, hs, hres, _⟩ := findRefScan_found _ _ o hscan
      exact absurd hres (habs s hs)
  · constructor
    · intro hc
      obtain ⟨s, hs, hres⟩ := hc
      exact absurd hres (findRefScan_absent _ _ hscan s hs)
    · intro _
      exact ⟨ho, by rw [he']⟩

/-- Witness for C5 (amended) at `eC5`, exercising the append branch. -/
theorem C5_witness :
    ((find_or_add_strtab_ref eC5).getD (0, eC5)).1 = eC5.shstrtab.length ∧
    ((find_or_add_strtab_ref eC5).getD (0, eC5)).2.shstrtab =
      eC5.shstrtab ++ REFERENCE_SECTION_NAME ++ [0] :=
  (C5_lookup_by_usage eC5 _ _ rfl).2 (by decide)

/-- C6: when no section uses the reserved name, `find_or_add_strtab_ref`
appends the name's bytes plus a null terminator at the end of the string
table's buffer, preserves all previous contents at their original offsets,
sets the table section's declared size to the new buffer size, and returns
the previous buffer size as the new entry's offset. -/
theorem C6_append_grows_table (e : Elf) (o : Nat) (e' : Elf)
    (habs : ∀ s ∈ e.scns, resolveName e s ≠ some REFERENCE_SECTION_NAME)
    (h : find_or_add_strtab_ref e = some (o, e')) :
    o = e.shstrtab.length ∧
    e'.shstrtab = e.shstrtab ++ REFERENCE_SECTION_NAME ++ [0] ∧
    e'.shstrtab.length =
      e.shstrtab.length + (REFERENCE_SECTION_NAME.length + 1) ∧
    (∀ i, i < e.shstrtab.length → e'.shstrtab.get? i = e.shstrtab.get? i) ∧
    ∃ st, elf_getscn e e.e_shstrndx = some st ∧
      e'.scns = e.scns.set (e.e_shstrndx - 1)
        { st with shdr := { st.shdr with sh_size := e'.shstrtab.length } } := by
  rcases find_or_add_eq e o e' h with ⟨hscan, rfl⟩ | ⟨hscan, st, hg, ho, he'⟩
  · obtain ⟨s, hs, hres, _⟩ := findRefScan_found _ _ o hscan
    exact absurd hres (habs s hs)
  · subst he'
    refine ⟨ho, rfl, by simp [List.length_append], ?_, st, hg, rfl⟩
    intro i hi
    rw [List.get?_append (by simp [List.length_append]; omega),
      List.get?_append hi]

/-- Witness for C6 at `eC5` (no section uses the reserved name). -/
theorem C6_witness :
    ((find_or_add_strtab_ref eC5).getD (0, eC5)).1 = eC5.shstrtab.length ∧
    ((find_or_add_strtab_ref eC5).getD (0, eC5)).2.shstrtab =
      eC5.shstrtab ++ REFERENCE_SECTION_NAME ++ [0] ∧
    ((find_or_add_strtab_ref eC5).getD (0, eC5)).2.shstrtab.length =
      eC5.shstrtab.length + (REFERENCE_SECTION_NAME.length + 1) ∧
    (∀ i, i < eC5.shstrtab.length →
      ((find_or_add_strtab_ref eC5).getD (0, eC5)).2.shstrtab.get? i =
        eC5.shstrtab.get? i) ∧
    ∃ st, elf_getscn eC5 eC5.e_shstrndx = some st ∧
      ((find_or_add_strtab_ref eC5).getD (0, eC5)).2.scns =
        eC5.scns.set (eC5.e_shstrndx - 1)
          { st with shdr := { st.shdr with
              sh_size := ((find_or_add_strtab_ref eC5).getD (0, eC5)).2.shstrtab.length } } :=
  C6_append_grows_table eC5 _ _ (by decide) rfl

/-- Witness for C7 at a container with no byte-bearing sections. -/
theorem C7_witness :
    computeAppendOffset eEmpty = maxEndSpec eEmpty.scns ∧
    computeAppendOffset eEmpty = 0 :=
  ⟨(C7_compute_append_offset eEmpty).1, (C7_compute_append_offset eEmpty).2 rfl⟩

/-- Unfolding of a successful `add`: the container after `find_or_add`, with
one new `SHT_NOTE` section holding the encoded record appended at the
computed append offset, and `e_shoff` pointing just past the new bytes. -/
lemma add_eq (e : Elf) (m d : List Byte) (e' : Elf) (h : add e m d = some e') :
    ∃ o e1, find_or_add_strtab_ref e = some (o, e1) ∧
      e' = { e1 with
        scns := e1.scns ++
          [⟨⟨o, SHT_NOTE, SHF_ALLOC, computeAppendOffset e1,
            noteHeaderSize + roundUp4 m.length + roundUp4 d.length, 1, 0⟩,
            [some (encodeNote m d)]⟩]
        e_shoff := computeAppendOffset e1 +
          (noteHeaderSize + roundUp4 m.length + roundUp4 d.length) } := by
  unfold add at h
  revert h
  cases hf : find_or_add_strtab_ref e with
  | none =>
    intro h
    exact absurd (show (none : Option Elf) = some e' from h) (by simp)
  | some pr =>
    obtain ⟨o, e1⟩ := pr
    intro h
    have h2 : some ({ e1 with
        scns := e1.scns ++
          [⟨⟨o, SHT_NOTE, SHF_ALLOC, computeAppendOffset e1,
            noteHeaderSize + roundUp4 m.length + roundUp4 d.length, 1, 0⟩,
            [some (encodeNote m d)]⟩]
        e_shoff := computeAppendOffset e1 +
          (noteHeaderSize + roundUp4 m.length + roundUp4 d.length) } : Elf) =
        some e' := h
    injection h2 with h3
    exact ⟨o, e1, rfl, h3.symm⟩

/-- C2: after a successful `add`, the new section's byte range
`[sh_offset, sh_offset + sh_size)` does not intersect the occupied range of
any other byte-bearing section, and the container's `e_shoff` equals the new
section's `sh_offset + sh_size`. -/
theorem C2_new_section_disjoint (e e' : Elf) (m d : List Byte)
    (h : add e m d = some e') :
    ∃ ref rest, e'.scns = rest ++ [ref] ∧
      e'.e_shoff = ref.shdr.sh_offset + ref.shdr.sh_size ∧
      ∀ s ∈ rest, s.shdr.sh_type ≠ SHT_NOBITS →
        ¬ overlap ref.shdr.sh_offset ref.shdr.sh_size
            s.shdr.sh_offset s.shdr.sh_size := by
  obtain ⟨o, e1, hf, rfl⟩ := add_eq e m d e' h
  refine ⟨_, e1.scns, rfl, rfl, ?_⟩
  intro s hs hbb
  have hle : s.shdr.sh_offset + s.shdr.sh_size ≤ computeAppendOffset e1 := by
    rw [computeAppendOffset_eq]
    exact mem_le_maxEndSpec _ s hs hbb
  rw [overlap_iff]
  dsimp only
  omega

/-- A minimal container: one string-table section at `[1, 2)`, table data a
single null byte, no section named `".reference"`. -/
def st0 : Scn := ⟨⟨0, 3, 0, 1, 1, 1, 0⟩, []⟩

/-- A minimal container for exercising `add` end to end. -/
def e0 : Elf := ⟨1, 0, [st0], [0]⟩

/-- Witness for C2 at the concrete container `e0`. -/
theorem C2_witness :
    ∃ ref rest, ((add e0 [97] [98]).getD e0).scns = rest ++ [ref] ∧
      ((add e0 [97] [98]).getD e0).e_shoff =
        ref.shdr.sh_offset + ref.shdr.sh_size ∧
      ∀ s ∈ rest, s.shdr.sh_type ≠ SHT_NOBITS →
        ¬ overlap ref.shdr.sh_offset ref.shdr.sh_size
            s.shdr.sh_offset s.shdr.sh_size :=
  C2_new_section_disjoint e0 _ [97] [98] rfl

/-- Byte-bearing sections `s` and `t` have disjoint occupied ranges. -/
def scnConflictFree (s t : Scn) : Prop :=
  s.shdr.sh_type ≠ SHT_NOBITS → t.shdr.sh_type ≠ SHT_NOBITS →
    ¬ overlap s.shdr.sh_offset s.shdr.sh_size t.shdr.sh_offset t.shdr.sh_size

instance (s t : Scn) : Decidable (scnConflictFree s t) := by
  unfold scnConflictFree
  infer_instance

/-- No two byte-bearing sections of the list have intersecting occupied
ranges. -/
def SectionsNonOverlapping (l : List Scn) : Prop :=
  l.Pairwise scnConflictFree

instance (l : List Scn) : Decidable (SectionsNonOverlapping l) := by
  unfold SectionsNonOverlapping
  infer_instance

lemma overlap_comm (a n b m : Nat) : overlap a n b m ↔ overlap b m a n := by
  rw [overlap_iff, overlap_iff]
  omega

lemma sectionsNonOverlapping_get? (l : List Scn) :
    SectionsNonOverlapping l ↔
      ∀ i j si sj, i < j → l.get? i = some si → l.get? j = some sj →
        scnConflictFree si sj := by
  unfold SectionsNonOverlapping
  rw [List.pairwise_iff_get]
  constructor
  · intro H i j si sj hij hi hj
    obtain ⟨hilt, higet⟩ := List.get?_eq_some.mp hi
    obtain ⟨hjlt, hjget⟩ := List.get?_eq_some.mp hj
    have := H ⟨i, hilt⟩ ⟨j, hjlt⟩ hij
    rw [higet, hjget] at this
    exact this
  · intro H i j hij
    exact H i j (l.get i) (l.get j) hij (List.get?_eq_get i.isLt)
      (List.get?_eq_get j.isLt)

lemma elf_getscn_some (e : Elf) (ndx : Nat) (st : Scn)
    (h : elf_getscn e ndx = some st) :
    ndx ≠ 0 ∧ e.scns.get? (ndx - 1) = some st := by
  unfold elf_getscn at h
  by_cases h0 : ndx = 0
  · rw [if_pos h0] at h
    cases h
  · rw [if_neg h0] at h
    exact ⟨h0, h⟩

/-- A byte-bearing `PROGBITS` section occupying `[1, 11)`, placed right after
the one-byte string table of `eC5`/`e3`. -/
def s2 : Scn := ⟨⟨0, 1, 0, 1, 10, 1, 0⟩, []⟩

/-- A container whose string table `[0, 1)` is immediately followed by a
byte-bearing section `[1, 11)`: growing the table in place overlaps it. -/
def e3 : Elf := ⟨1, 0, [stPlain, s2], [0]⟩

/-- C3 counterexample: `e3` satisfies the non-overlap invariant, `add`
succeeds on it, and the result violates the invariant: the string-table
section grows in place to `[0, 12)`, intersecting the byte-bearing section
at `[1, 11)` which is not relocated. -/
theorem C3_counterexample :
    SectionsNonOverlapping e3.scns ∧
    add e3 [97] [98] = some ((add e3 [97] [98]).getD e3) ∧
    ¬ SectionsNonOverlapping ((add e3 [97] [98]).getD e3).scns :=
  ⟨by decide, rfl, by decide⟩

/-- C3 (amended): `add` preserves the section non-overlap invariant provided
additionally that the string table's grown range — its `sh_offset` plus the
old buffer size plus the 11 appended bytes — does not intersect the occupied
range of any other byte-bearing section.  (Without that proviso the in-place
growth of the string table can overlap a section placed after it, as the
counterexample shows.) -/
theorem C3_invariant_preserved (e e' : Elf) (m d : List Byte)
    (hinv : SectionsNonOverlapping e.scns)
    (hgrow : ∀ st, elf_getscn e e.e_shstrndx = some st →
      ∀ i s, e.scns.get? i = some s → i ≠ e.e_shstrndx - 1 →
        s.shdr.sh_type ≠ SHT_NOBITS →
        ¬ overlap st.shdr.sh_offset
            (e.shstrtab.length + (REFERENCE_SECTION_NAME.length + 1))
            s.shdr.sh_offset s.shdr.sh_size)
    (h : add e m d = some e') :
    SectionsNonOverlapping e'.scns := by
  obtain ⟨o, e1, hf, rfl⟩ := add_eq e m d e' h
  have h1 : SectionsNonOverlapping e1.scns := by
    rcases find_or_add_eq e o e1 hf with ⟨_, rfl⟩ | ⟨_, st, hg, _, rfl⟩
    · exact hinv
    · obtain ⟨hk0, hkget⟩ := elf_getscn_some e e.e_shstrndx st hg
      have hklen : e.e_shstrndx - 1 < e.scns.length :=
        (List.get?_eq_some.mp hkget).1
      have hsz : (e.shstrtab ++ REFERENCE_SECTION_NAME ++ [0]).length =
          e.shstrtab.length + (REFERENCE_SECTION_NAME.length + 1) := by
        simp [List.length_append]
      rw [sectionsNonOverlapping_get?] at hinv ⊢
      intro i j si sj hij hi hj
      dsimp only at hi hj
      by_cases hik : e.e_shstrndx - 1 = i
      · have hjk : e.e_shstrndx - 1 ≠ j := by omega
        rw [← hik, List.get?_set_eq_of_lt _ (hik ▸ hklen)] at hi
        rw [List.get?_set_ne _ _ hjk] at hj
        injection hi with hi1
        subst hi1
        intro hT1 hT2
        have := hgrow st hg j sj hj (by omega) hT2
        rw [overlap_iff] at this ⊢
        dsimp only
        rw [hsz]
        exact this
      · rw [List.get?_set_ne _ _ hik] at hi
        by_cases hjk : e.e_shstrndx - 1 = j
        · rw [← hjk, List.get?_set_eq_of_lt _ (hjk ▸ hklen)] at hj
          injection hj with hj1
          subst hj1
          intro hT1 hT2
          have := hgrow st hg i si hi (by omega) hT1
          rw [overlap_iff] at this ⊢
          dsimp only
          rw [hsz]
          omega
        · rw [List.get?_set_ne _ _ hjk] at hj
          exact hinv i j si sj hij hi hj
  refine List.pairwise_append.mpr ⟨h1, List.pairwise_singleton _ _, ?_⟩
  intro a ha b hb
  simp only [List.mem_singleton] at hb
  subst hb
  intro haT hbT
  have hle : a.shdr.sh_offset + a.shdr.sh_size ≤ computeAppendOffset e1 := by
    rw [computeAppendOffset_eq]
    exact mem_le_maxEndSpec _ a ha haT
  rw [overlap_iff]
  dsimp only
  omega

/-- Witness for C3 (amended) at `e0`: a single-section container where the
grown string table overlaps nothing. -/
theorem C3_witness :
    SectionsNonOverlapping ((add e0 [97] [98]).getD e0).scns := by
  refine C3_invariant_preserved e0 _ [97] [98] (by decide) ?_ rfl
  intro st hst i s hi hik hbb
  have hik' : i ≠ 0 := hik
  cases i with
  | zero => exact absurd rfl hik'
  | succ i' => cases hi

lemma listScan_spec (e : Elf) (l : List Scn) (out : List (List Byte))
    (h : listScan e l = some out) :
    out = ((l.filter
        (fun s => decide (resolveName e s = some REFERENCE_SECTION_NAME))).map
      (fun s => s.blocks.filterMap (fun b => Option.map fmtLine b))).flatten := by
  induction l generalizing out with
  | nil =>
    simp only [listScan] at h
    injection h with h1
    subst h1
    rfl
  | cons s rest ih =>
    cases hr : read_section e s with
    | none =>
      simp only [listScan, hr] at h
      exact Option.noConfusion h
    | some ls =>
      cases hrest : listScan e rest with
      | none =>
        simp only [listScan, hr, hrest] at h
        exact Option.noConfusion h
      | some more =>
        simp only [listScan, hr, hrest] at h
        injection h with h1
        subst h1
        by_cases hp : resolveName e s = some REFERENCE_SECTION_NAME
        · have hread : read_section e s =
              some (s.blocks.filterMap (fun b => Option.map fmtLine b)) := by
            simp [read_section, hp]
          rw [hread] at hr
          injection hr with hr1
          rw [List.filter_cons, if_pos (by simp [hp]), List.map_cons,
            List.flatten_cons, ← ih more hrest, ← hr1]
        · have hls : ls = [] := by
            have hr' := hr
            unfold read_section at hr'
            cases hres : resolveName e s with
            | none =>
              simp only [hres] at hr'
              exact Option.noConfusion hr'
            | some nm =>
              simp only [hres] at hr'
              have hnm : nm ≠ REFERENCE_SECTION_NAME := by
                intro hc
                exact hp (by rw [hres, hc])
              rw [if_pos hnm] at hr'
              injection hr' with hr1
              exact hr1.symm
          rw [List.filter_cons, if_neg (by simp [hp]), hls, List.nil_append]
          exact ih more hrest

/-- C9: a successful `list` prints, in section-table order, exactly one line
per non-null data block of each section whose resolved name is
`".reference"`; sections with any other name are skipped and contribute
nothing; each line is the decoded description followed by the decoded name in
parentheses (`fmtLine`). -/
theorem C9_list_lines (e : Elf) (out : List (List Byte))
    (h : list e = some out) :
    out = ((e.scns.filter
        (fun s => decide (resolveName e s = some REFERENCE_SECTION_NAME))).map
      (fun s => s.blocks.filterMap (fun b => Option.map fmtLine b))).flatten :=
  listScan_spec e e.scns out h

/-- A `".reference"` section with three data blocks: a note, a null block,
and another note. -/
def refScn : Scn :=
  ⟨⟨1, 7, 2, 20, 20, 1, 0⟩,
    [some (encodeNote [97] [104, 105]), none,
      some (encodeNote [98, 98] [121, 111])]⟩

/-- A section with a different name whose data block must be ignored. -/
def otherScn : Scn := ⟨⟨0, 1, 0, 40, 4, 1, 0⟩, [some (encodeNote [97] [104, 105])]⟩

/-- A container mixing reference and non-reference sections, with a null
data block in the middle. -/
def eList : Elf := ⟨1, 0, [stRef, refScn, otherScn], [0] ++ REFERENCE_SECTION_NAME ++ [0]⟩

/-- Witness for C9 at the concrete container `eList`. -/
theorem C9_witness :
    (list eList).getD [] = ((eList.scns.filter
        (fun s => decide (resolveName eList s = some REFERENCE_SECTION_NAME))).map
      (fun s => s.blocks.filterMap (fun b => Option.map fmtLine b))).flatten :=
  C9_list_lines eList _ rfl
